import Mathlib

/-!
# Verification of the SFLZ4 LZ4 block codec (src/sflz4.h)

Shallow embedding of the C library `sflz4.h` (LZ4 block format encoder and
decoder) and proofs about it.  Bytes are modelled as `Nat` (with `< 256`
hypotheses where the value range matters), buffers as `List Nat`, and the C
loops as fuel-indexed structural recursions (fuel exhaustion is `Option.none`;
the chosen fuels are large enough for every concrete computation below, and
general theorems are stated so that fuel exhaustion never weakens them).
Machine arithmetic that can wrap in C (`uint32_t` multiply in the hash,
`uint32_t` subtraction in the encoder's chain check) is modelled with an
explicit `% 4294967296`.
-/

namespace SFLZ4

/-- The three status-message constants of the C library
(`sflz4_status_message__error_*`), as an enumerated error kind. -/
inductive Status where
  | dstIsTooShort
  | invalidData
  | srcIsTooLong
deriving DecidableEq, Repr

/-- `sflz4_size_result`: an optional status message plus a `size_t` value. -/
structure SizeResult where
  status : Option Status
  value : Nat
deriving DecidableEq, Repr

/-! ## Decoder (`sflz4_block_decode`, sflz4.h lines 192-285) -/

/-- The decoder's length-extension loop (sflz4.h lines 216-227 and 259-269):
repeatedly read a byte `s`, add it to the accumulator, and stop at the first
byte `s ≠ 255`; running out of source is `invalid-data` (`none`). -/
def lz4ExtLen : Nat → List Nat → Option (Nat × List Nat)
  | _, [] => none
  | acc, s :: rest => if s ≠ 255 then some (acc + s, rest) else lz4ExtLen (acc + s) rest

/-- The decoder's match-copy loop (sflz4.h lines 277-279): copy `copy_len`
bytes forward, byte by byte, starting `copy_off` bytes behind the destination
cursor.  `written` is the destination content so far; each step appends the
byte at index `written.length - copy_off` (the byte `*from`). -/
def lz4MatchCopy (written : List Nat) (copyOff : Nat) : Nat → List Nat
  | 0 => written
  | n + 1 => lz4MatchCopy (written ++ [written.getD (written.length - copyOff) 0]) copyOff n

/-- The match half of one decoder loop iteration (sflz4.h lines 246-279),
entered after the literal run: read the 16-bit little-endian offset, validate
it, read the match length (with extension), check destination space, and do
the overlapping forward copy.  `Sum.inl` is a terminal result (the partial
destination content plus the status); `Sum.inr` is the next loop state
`(written, dst_len, src)`. -/
def decodeMatchStep (written : List Nat) (dstLen : Nat) (src : List Nat)
    (token : Nat) : Sum (List Nat × SizeResult) (List Nat × Nat × List Nat) :=
  match src with
  | [] => .inl (written, ⟨some .invalidData, 0⟩)
  | [_] => .inl (written, ⟨some .invalidData, 0⟩)
  | b0 :: b1 :: rest =>
    let copyOff := b0 ||| (b1 <<< 8)
    if copyOff = 0 ∨ copyOff > written.length then
      .inl (written, ⟨some .invalidData, 0⟩)
    else
      let copyLen := (token &&& 15) + 4
      match (if copyLen = 19 then lz4ExtLen copyLen rest else some (copyLen, rest)) with
      | none => .inl (written, ⟨some .invalidData, 0⟩)
      | some (copyLen, rest) =>
        if dstLen < copyLen then .inl (written, ⟨some .dstIsTooShort, 0⟩)
        else .inr (lz4MatchCopy written copyOff copyLen, dstLen - copyLen, rest)

/-- The decoder's sequence loop (sflz4.h lines 209-280), one fuel unit per
iteration.  State: destination content `written`, remaining destination
capacity `dstLen`, remaining source `src`.  An empty source is the loop exit,
which in the C code falls through to `fail_invalid_data` (line 282).  Note
that the end-of-block success return (lines 240-243) sits inside the
`literal_len > 0` branch, exactly as in the C code. -/
def decodeLoop : Nat → List Nat → Nat → List Nat → Option (List Nat × SizeResult)
  | _, written, _, [] => some (written, ⟨some .invalidData, 0⟩)
  | 0, _, _, _ :: _ => none
  | fuel + 1, written, dstLen, token :: src =>
    let literalLen := token >>> 4
    if literalLen > 0 then
      match (if literalLen = 15 then lz4ExtLen literalLen src else some (literalLen, src)) with
      | none => some (written, ⟨some .invalidData, 0⟩)
      | some (literalLen, src) =>
        if literalLen > src.length then some (written, ⟨some .invalidData, 0⟩)
        else if literalLen > dstLen then some (written, ⟨some .dstIsTooShort, 0⟩)
        else
          let written := written ++ src.take literalLen
          let dstLen := dstLen - literalLen
          let src := src.drop literalLen
          if src.length = 0 then some (written, ⟨none, written.length⟩)
          else
            match decodeMatchStep written dstLen src token with
            | .inl r => some r
            | .inr (w, d, s) => decodeLoop fuel w d s
    else
      match decodeMatchStep written dstLen src token with
      | .inl r => some r
      | .inr (w, d, s) => decodeLoop fuel w d s

/-- `sflz4_block_decode` (sflz4.h lines 192-285).  Returns the destination
content together with the `sflz4_size_result`.  The fuel `src.length + 1`
provably suffices (`decodeLoop_isSome` below), so the `getD` default is
unreachable. -/
def sflz4_block_decode (dstCap : Nat) (src : List Nat) : List Nat × SizeResult :=
  if src.length > 0x00FFFFFF then ([], ⟨some .srcIsTooLong, 0⟩)
  else (decodeLoop (src.length + 1) [] dstCap src).getD ([], ⟨some .invalidData, 0⟩)

/-! ## Encoder (`sflz4_block_encode`, sflz4.h lines 287-489)

The source buffer is a fixed `List Nat`; the C pointers `sp`, `match`,
`literal_start`, `next_sp` become indices into it, and the destination is the
list of bytes written so far (the token fix-up `*token |= ...` becomes a
`List.set` at the recorded token position).  The hash table is a function
`Nat → Nat` from 12-bit keys to stored offsets, zero-initialized. -/

/-- `sflz4_private_peek_u32le` (sflz4.h lines 168-179): the little-endian
32-bit value of the four bytes at index `i` (out-of-range reads default to 0;
the C code only peeks in bounds). -/
def sflz4_private_peek_u32le (src : List Nat) (i : Nat) : Nat :=
  src.getD i 0 ||| (src.getD (i + 1) 0 <<< 8) ||| (src.getD (i + 2) 0 <<< 16) |||
    (src.getD (i + 3) 0 <<< 24)

/-- `sflz4_private_hash` (sflz4.h lines 291-296): Knuth multiplicative hash
into 12 bits; the `uint32_t` multiply wraps, hence the explicit mod. -/
def sflz4_private_hash (x : Nat) : Nat :=
  ((x * 2654435761) % 4294967296) >>> 20

/-- The word-at-a-time phase of the LCP helper (sflz4.h lines 305-310);
fuel `n` suffices since `n` drops by 4 per step. -/
def lcpWordPhase (src : List Nat) : Nat → Nat → Nat → Nat → Nat × Nat × Nat
  | 0, p, q, n => (p, q, n)
  | fuel + 1, p, q, n =>
    if 4 ≤ n ∧ sflz4_private_peek_u32le src p = sflz4_private_peek_u32le src q then
      lcpWordPhase src fuel (p + 4) (q + 4) (n - 4)
    else (p, q, n)

/-- The byte-at-a-time phase of the LCP helper (sflz4.h lines 311-315);
returns the final `p`. -/
def lcpBytePhase (src : List Nat) : Nat → Nat → Nat → Nat → Nat
  | 0, p, _, _ => p
  | fuel + 1, p, q, n =>
    if 0 < n ∧ src.getD p 0 = src.getD q 0 then lcpBytePhase src fuel (p + 1) (q + 1) (n - 1)
    else p

/-- The LCP helper (sflz4.h lines 298-317): the length of the longest run of
equal bytes from `p` and from `q`, bounded by `pLimit`. -/
def sflz4_private_longest_common_prefix (src : List Nat) (p q pLimit : Nat) : Nat :=
  let n := pLimit - p
  match lcpWordPhase src n p q n with
  | (p1, q1, n1) => lcpBytePhase src n1 p1 q1 n1 - p

/-- `sflz4_block_encode_worst_case_dst_len` (sflz4.h lines 319-331). -/
def sflz4_block_encode_worst_case_dst_len (srcLen : Nat) : SizeResult :=
  if srcLen > 0x7E000000 then ⟨some .srcIsTooLong, 0⟩
  else ⟨none, srcLen + srcLen / 255 + 16⟩

/-- Point update of the encoder's hash table. -/
def updT (t : Nat → Nat) (i v : Nat) : Nat → Nat :=
  fun j => if j = i then v else t j

/-- `uint32_t` subtraction (used for `new_offset - old_offset` at
sflz4.h line 460), for arguments below `2^32`. -/
def usub32 (a b : Nat) : Nat :=
  (a + 4294967296 - b) % 4294967296

/-- The length-extension emission loop of the encoder (sflz4.h lines
406-411, 431-436, 476-481): `for (; n >= 255; n -= 255) *dp++ = 0xFF;
*dp++ = (uint8_t)n;`, which emits `n / 255` bytes `0xFF` followed by the
remainder `n % 255`. -/
def lz4LenExtBytes (n : Nat) : List Nat :=
  List.replicate (n / 255) 0xFF ++ [n % 255]

/-- The token-plus-literal-length emission (sflz4.h lines 401-412 and
473-482): a token byte with high nibble `literal_len` (or `0xF0` plus
extension bytes), appended to `dst`.  The match half of the token is 0 for
now and is fixed up later via `List.set`. -/
def emitLiteralLenToken (dst : List Nat) (literalLen : Nat) : List Nat :=
  if literalLen < 15 then dst ++ [literalLen <<< 4]
  else (dst ++ [0xF0]) ++ lz4LenExtBytes (literalLen - 15)

/-- The `final_literals` tail of the encoder (sflz4.h lines 470-485): emit a
token for the remaining literal run and then the raw bytes from
`literal_start` to the end of the source. -/
def emitFinalLiterals (src : List Nat) (dst : List Nat) (literalStart : Nat) : List Nat :=
  let finalLiteralLen := src.length - literalStart
  emitLiteralLenToken dst finalLiteralLen ++ (src.drop literalStart).take finalLiteralLen

/-- The encoder's match-search `do`-`while` loop (sflz4.h lines 378-390).
State: hash table, `step`, `step_counter`, `next_sp`, `next_hash`.  Result:
`none` is fuel exhaustion, `some none` is `goto final_literals`, and
`some (some (table, sp, m))` is a found match (`m` the earlier-copy index).
The stored-offset read, the `next_hash` recomputation and the store happen in
the C order. -/
def encodeSearch (src : List Nat) (finalLiteralsLimit : Nat) :
    Nat → (Nat → Nat) → Nat → Nat → Nat → Nat →
    Option (Option ((Nat → Nat) × Nat × Nat))
  | 0, _, _, _, _, _ => none
  | fuel + 1, table, step, stepCounter, nextSp, nextHash =>
    let sp := nextSp
    let nextSp := nextSp + step
    let step := stepCounter >>> 6
    let stepCounter := stepCounter + 1
    if nextSp > finalLiteralsLimit then some none
    else
      let m := table nextHash
      let nextHash1 := sflz4_private_hash (sflz4_private_peek_u32le src nextSp)
      let table := updT table nextHash sp
      if (Int.ofNat sp - Int.ofNat m) > 0xFFFF ∨
          sflz4_private_peek_u32le src sp ≠ sflz4_private_peek_u32le src m then
        encodeSearch src finalLiteralsLimit fuel table step stepCounter nextSp nextHash1
      else some (some (table, sp, m))

/-- The backward match extension (sflz4.h lines 392-397): move `sp` and `m`
back while the preceding bytes agree, not crossing `literal_start` or the
source start. -/
def backExtend (src : List Nat) : Nat → Nat → Nat → Nat → Nat × Nat
  | 0, sp, m, _ => (sp, m)
  | fuel + 1, sp, m, literalStart =>
    if sp > literalStart ∧ m > 0 ∧ src.getD (sp - 1) 0 = src.getD (m - 1) 0 then
      backExtend src fuel (sp - 1) (m - 1) literalStart
    else (sp, m)

/-- The encoder's match-emission / match-chaining inner loop (sflz4.h lines
416-466).  `tokenPos` is the index of the pending token byte in `dst`.
Result: `none` is fuel exhaustion; `some (Sum.inl (table, dst, sp))` is the
`break` back to the search phase (with `literal_start = sp`); and
`some (Sum.inr (table, dst, sp))` is `goto final_literals` (with
`literal_start = sp`). -/
def encodeChain (src : List Nat) (matchLimit finalLiteralsLimit : Nat) :
    Nat → (Nat → Nat) → List Nat → Nat → Nat → Nat →
    Option (Sum ((Nat → Nat) × List Nat × Nat) ((Nat → Nat) × List Nat × Nat))
  | 0, _, _, _, _, _ => none
  | fuel + 1, table, dst, tokenPos, sp, m =>
    let copyOff := sp - m
    let dst := dst ++ [copyOff &&& 255, (copyOff >>> 8) &&& 255]
    let adjCopyLen := sflz4_private_longest_common_prefix src (4 + sp) (4 + m) matchLimit
    let dst :=
      if adjCopyLen < 15 then dst.set tokenPos (dst.getD tokenPos 0 ||| adjCopyLen)
      else (dst.set tokenPos (dst.getD tokenPos 0 ||| 0x0F)) ++ lz4LenExtBytes (adjCopyLen - 15)
    let sp := sp + 4 + adjCopyLen
    if sp ≥ finalLiteralsLimit then some (.inr (table, dst, sp))
    else
      let table := updT table (sflz4_private_hash (sflz4_private_peek_u32le src (sp - 2))) (sp - 2)
      let entry := sflz4_private_hash (sflz4_private_peek_u32le src sp)
      let oldOffset := table entry
      let newOffset := sp
      let table := updT table entry newOffset
      if usub32 newOffset oldOffset > 0xFFFF ∨
          sflz4_private_peek_u32le src sp ≠ sflz4_private_peek_u32le src oldOffset then
        some (.inl (table, dst, sp))
      else
        let tokenPos := dst.length
        let dst := dst ++ [0]
        encodeChain src matchLimit finalLiteralsLimit fuel table dst tokenPos sp oldOffset

/-- The encoder's outer `while (1)` loop (sflz4.h lines 365-467).  At the
top of each iteration `sp = literal_start` (true on entry and re-established
by the chain loop's `break`), so the loop state is `table`, `dst` and the
common value `sp` of the two C variables.  Returns the destination content
and the `literal_start` for the `final_literals` tail. -/
def encodeOuter (src : List Nat) (matchLimit finalLiteralsLimit : Nat) :
    Nat → (Nat → Nat) → List Nat → Nat → Option (List Nat × Nat)
  | 0, _, _, _ => none
  | fuel + 1, table, dst, sp =>
    let literalStart := sp
    let nextSp := sp + 1
    let nextHash := sflz4_private_hash (sflz4_private_peek_u32le src nextSp)
    match encodeSearch src finalLiteralsLimit (finalLiteralsLimit + 2) table 1 64 nextSp nextHash with
    | none => none
    | some none => some (dst, literalStart)
    | some (some (table, sp, m)) =>
      match backExtend src sp sp m literalStart with
      | (sp, m) =>
        let tokenPos := dst.length
        let literalLen := sp - literalStart
        let dst := emitLiteralLenToken dst literalLen
        let dst := dst ++ (src.drop literalStart).take literalLen
        match encodeChain src matchLimit finalLiteralsLimit (finalLiteralsLimit + 2)
            table dst tokenPos sp m with
        | none => none
        | some (.inr (_, dst, sp)) => some (dst, sp)
        | some (.inl (table, dst, sp)) =>
          encodeOuter src matchLimit finalLiteralsLimit fuel table dst sp

/-- `sflz4_block_encode` (sflz4.h lines 333-489).  Returns the destination
content plus the `sflz4_size_result` (`none` only on fuel exhaustion, which
the general theorems below never rely on). -/
def sflz4_block_encode (dstLen : Nat) (src : List Nat) : Option (List Nat × SizeResult) :=
  match sflz4_block_encode_worst_case_dst_len src.length with
  | ⟨some e, _⟩ => some ([], ⟨some e, 0⟩)
  | ⟨none, v⟩ =>
    if v > dstLen then some ([], ⟨some .dstIsTooShort, 0⟩)
    else
      let srcLen := src.length
      if srcLen > 12 then
        let matchLimit := srcLen - 5
        let finalLiteralsLimit := srcLen - 11
        match encodeOuter src matchLimit finalLiteralsLimit (srcLen + 2) (fun _ => 0) [] 0 with
        | none => none
        | some (dst, literalStart) =>
          let dst := emitFinalLiterals src dst literalStart
          some (dst, ⟨none, dst.length⟩)
      else
        let dst := emitFinalLiterals src [] 0
        some (dst, ⟨none, dst.length⟩)

/-! ## Concrete test data (example.c) -/

/-- The 158-byte "She sells sea shells ..." input of example.c (lines 49-53),
as byte values (10 is the newline, 39 the apostrophe). -/
def sheSellsSrc : List Nat :=
  [83, 104, 101, 32, 115, 101, 108, 108, 115, 32, 115, 101, 97, 32, 115, 104,
   101, 108, 108, 115, 32, 98, 121, 32, 116, 104, 101, 32, 115, 101, 97, 32,
   115, 104, 111, 114, 101, 46, 10, 84, 104, 101, 32, 115, 104, 101, 108, 108,
   115, 32, 115, 104, 101, 32, 115, 101, 108, 108, 115, 32, 97, 114, 101, 32,
   115, 117, 114, 101, 108, 121, 32, 115, 101, 97, 115, 104, 101, 108, 108, 115,
   46, 10, 83, 111, 32, 105, 102, 32, 115, 104, 101, 32, 115, 101, 108, 108,
   115, 32, 115, 104, 101, 108, 108, 115, 32, 111, 110, 32, 116, 104, 101, 32,
   115, 101, 97, 115, 104, 111, 114, 101, 44, 10, 73, 39, 109, 32, 115, 117,
   114, 101, 32, 115, 104, 101, 32, 115, 101, 108, 108, 115, 32, 115, 101, 97,
   115, 104, 111, 114, 101, 32, 115, 104, 101, 108, 108, 115, 46, 10]

/-- The expected 114-byte LZ4 block for `sheSellsSrc` (example.c lines
20-35). -/
def sheSellsEncoded : List Nat :=
  [0xF1, 0x01, 0x53, 0x68, 0x65, 0x20, 0x73, 0x65,
   0x6C, 0x6C, 0x73, 0x20, 0x73, 0x65, 0x61, 0x20,
   0x73, 0x68, 0x0B, 0x00, 0x41, 0x62, 0x79, 0x20,
   0x74, 0x18, 0x00, 0x00, 0x12, 0x00, 0x60, 0x6F,
   0x72, 0x65, 0x2E, 0x0A, 0x54, 0x0F, 0x00, 0x02,
   0x1D, 0x00, 0x10, 0x73, 0x0B, 0x00, 0x01, 0x27,
   0x00, 0xA0, 0x61, 0x72, 0x65, 0x20, 0x73, 0x75,
   0x72, 0x65, 0x6C, 0x79, 0x3D, 0x00, 0x02, 0x3C,
   0x00, 0x70, 0x2E, 0x0A, 0x53, 0x6F, 0x20, 0x69,
   0x66, 0x2D, 0x00, 0x03, 0x26, 0x00, 0x02, 0x18,
   0x00, 0x34, 0x20, 0x6F, 0x6E, 0x54, 0x00, 0x01,
   0x53, 0x00, 0x51, 0x2C, 0x0A, 0x49, 0x27, 0x6D,
   0x3E, 0x00, 0x08, 0x2B, 0x00, 0x03, 0x1D, 0x00,
   0x90, 0x20, 0x73, 0x68, 0x65, 0x6C, 0x6C, 0x73,
   0x2E, 0x0A]

/-! ## Decoder lemmas -/

/-- The length-extension loop consumes at least one source byte. -/
theorem lz4ExtLen_length_lt :
    ∀ (s : List Nat) (acc v : Nat) (r : List Nat),
      lz4ExtLen acc s = some (v, r) → r.length < s.length := by
  intro s
  induction s with
  | nil => intro acc v r h; simp [lz4ExtLen] at h
  | cons b rest ih =>
    intro acc v r h
    rw [lz4ExtLen] at h
    split at h
    · cases h
      exact Nat.lt_succ_self _
    · exact Nat.lt_trans (ih _ _ _ h) (Nat.lt_succ_self _)

/-- The value accumulated by the length-extension loop is at most 255 per
consumed source byte. -/
theorem lz4ExtLen_le :
    ∀ (s : List Nat) (acc v : Nat) (r : List Nat),
      lz4ExtLen acc s = some (v, r) → (∀ b ∈ s, b < 256) →
      v ≤ acc + 255 * (s.length - r.length) := by
  intro s
  induction s with
  | nil => intro acc v r h; simp [lz4ExtLen] at h
  | cons b rest ih =>
    intro acc v r h hby
    have hb : b < 256 := hby b (List.mem_cons_self ..)
    rw [lz4ExtLen] at h
    split at h
    · cases h
      simp only [List.length_cons, Nat.add_sub_cancel_left]
      omega
    · have hlt := lz4ExtLen_length_lt rest _ _ _ h
      have := ih _ _ _ h (fun x hx => hby x (List.mem_cons_of_mem _ hx))
      simp only [List.length_cons]
      omega

/-- The match copy appends exactly `n` bytes. -/
theorem lz4MatchCopy_length :
    ∀ (n : Nat) (w : List Nat) (off : Nat),
      (lz4MatchCopy w off n).length = w.length + n := by
  intro n
  induction n with
  | zero => intro w off; rfl
  | succ n ih =>
    intro w off
    rw [lz4MatchCopy, ih]
    simp
    omega

/-- A match copy with offset 1 replicates the byte just before the
destination cursor (LZ4 run-length semantics). -/
theorem lz4MatchCopy_offset_one :
    ∀ (k : Nat) (w : List Nat),
      lz4MatchCopy w 1 k = w ++ List.replicate k (w.getD (w.length - 1) 0) := by
  intro k
  induction k with
  | zero => intro w; simp [lz4MatchCopy]
  | succ k ih =>
    intro w
    rw [lz4MatchCopy, ih]
    have hget : (w ++ [w.getD (w.length - 1) 0]).getD ((w ++ [w.getD (w.length - 1) 0]).length - 1) 0 =
        w.getD (w.length - 1) 0 := by
      simp [List.getD_append_right, List.length_append]
    rw [hget]
    simp [List.replicate_succ, List.append_assoc]

/-- The match phase of the decoder consumes at least two source bytes and
preserves `written.length + dst_len` when it continues the loop. -/
theorem decodeMatchStep_inr :
    ∀ (w : List Nat) (d : Nat) (s : List Nat) (t : Nat) (w' : List Nat) (d' : Nat) (s' : List Nat),
      decodeMatchStep w d s t = .inr (w', d', s') →
      s'.length + 2 ≤ s.length ∧ w'.length + d' = w.length + d := by
  intro w d s t w' d' s' h
  match s with
  | [] => rw [decodeMatchStep] at h; cases h
  | [b0] => rw [decodeMatchStep] at h; cases h
  | b0 :: b1 :: rest =>
    rw [decodeMatchStep] at h
    dsimp only at h
    split at h
    · cases h
    · rcases hext : (if (t &&& 15) + 4 = 19 then lz4ExtLen ((t &&& 15) + 4) rest
          else some ((t &&& 15) + 4, rest)) with _ | ⟨copyLen, rest'⟩
      · rw [hext] at h
        simp at h
      · rw [hext] at h
        dsimp only at h
        split at h
        · cases h
        · have hr' : rest'.length ≤ rest.length := by
            split at hext
            · exact Nat.le_of_lt (lz4ExtLen_length_lt rest _ _ _ hext)
            · cases hext; exact Nat.le_refl _
          cases h
          refine ⟨by simp only [List.length_cons]; omega, ?_⟩
          rw [lz4MatchCopy_length]
          omega

/-- The match phase never extends the destination when it terminates the
decoder: a `Sum.inl` result carries the unchanged `written`. -/
theorem decodeMatchStep_inl :
    ∀ (w : List Nat) (d : Nat) (s : List Nat) (t : Nat) (w' : List Nat) (res : SizeResult),
      decodeMatchStep w d s t = .inl (w', res) → w' = w := by
  intro w d s t w' res h
  match s with
  | [] => rw [decodeMatchStep] at h; cases h; rfl
  | [b0] => rw [decodeMatchStep] at h; cases h; rfl
  | b0 :: b1 :: rest =>
    rw [decodeMatchStep] at h
    dsimp only at h
    split at h
    · cases h; rfl
    · split at h
      · cases h; rfl
      · split at h
        · cases h; rfl
        · cases h

/-- Fuel `src.length + 1` is always enough for `decodeLoop`: every loop
iteration consumes at least one source byte. -/
theorem decodeLoop_isSome :
    ∀ (fuel : Nat) (w : List Nat) (d : Nat) (s : List Nat),
      s.length < fuel → (decodeLoop fuel w d s).isSome := by
  intro fuel
  induction fuel with
  | zero => intro w d s h; omega
  | succ fuel ih =>
    intro w d s h
    match s with
    | [] => simp [decodeLoop]
    | token :: src =>
      have hsrc : src.length < fuel := by
        simp only [List.length_cons] at h; omega
      rw [decodeLoop]
      split
      · split
        · simp
        · rename_i literalLen src1 heq
          have hs1 : src1.length ≤ src.length := by
            split at heq
            · exact Nat.le_of_lt (lz4ExtLen_length_lt src _ _ _ heq)
            · cases heq; exact Nat.le_refl _
          split
          · simp
          · split
            · simp
            · dsimp only
              split
              · simp
              · split
                · simp
                · rename_i w' d' s' hstep
                  have hlen := (decodeMatchStep_inr _ _ _ _ _ _ _ hstep).1
                  refine ih w' d' s' ?_
                  simp only [List.length_drop] at hlen
                  omega
      · split
        · simp
        · rename_i w' d' s' hstep
          have := decodeMatchStep_inr _ _ _ _ _ _ _ hstep
          refine ih w' d' s' ?_
          omega

/-- Every result of the decoder loop carries at most
`written.length + dst_len` destination bytes: the decoder never writes past
the destination capacity. -/
theorem decodeLoop_written_le :
    ∀ (fuel : Nat) (w : List Nat) (d : Nat) (s : List Nat) (r : List Nat × SizeResult),
      decodeLoop fuel w d s = some r → r.1.length ≤ w.length + d := by
  intro fuel
  induction fuel with
  | zero =>
    intro w d s r h
    match s with
    | [] => rw [decodeLoop] at h; cases h; exact Nat.le_add_right _ _
    | x :: s => rw [decodeLoop] at h; cases h
  | succ fuel ih =>
    intro w d s r h
    match s with
    | [] => rw [decodeLoop] at h; cases h; exact Nat.le_add_right _ _
    | token :: src =>
      rw [decodeLoop] at h
      split at h
      · split at h
        · cases h; exact Nat.le_add_right _ _
        · rename_i literalLen src1 heq
          split at h
          · cases h; exact Nat.le_add_right _ _
          · split at h
            · cases h; exact Nat.le_add_right _ _
            · rename_i hsl hdl
              dsimp only at h
              split at h
              · cases h
                simp only [List.length_append, List.length_take]
                omega
              · split at h
                · rename_i w' res hstep
                  cases h
                  have hw' := decodeMatchStep_inl _ _ _ _ _ _ hstep
                  rw [hw']
                  simp only [List.length_append, List.length_take]
                  omega
                · rename_i w' d' s' hstep
                  have hpres := (decodeMatchStep_inr _ _ _ _ _ _ _ hstep).2
                  have := ih _ _ _ _ h
                  simp only [List.length_append, List.length_take] at hpres ⊢
                  omega
      · split at h
        · rename_i w' res hstep
          cases h
          have hw' := decodeMatchStep_inl _ _ _ _ _ _ hstep
          rw [hw']
          exact Nat.le_add_right _ _
        · rename_i w' d' s' hstep
          have hpres := (decodeMatchStep_inr _ _ _ _ _ _ _ hstep).2
          have := ih _ _ _ _ h
          omega

/-! ## Encoder lemmas

The worst-case output-length invariant of the encoder: writing `‖n‖` for
`n + n / 255`, the destination holds at most `‖literal_start‖ + 14` bytes at
the top of the outer loop, at most `‖sp‖ + 16` bytes when entering the
match-emission loop (the pending token and literals included), and the
`final_literals` tail adds at most `‖src_len - literal_start‖ + 2` bytes, for
a total of at most `‖src_len‖ + 16`. -/

/-- The extension-byte emission writes `n / 255 + 1` bytes. -/
theorem lz4LenExtBytes_length (n : Nat) : (lz4LenExtBytes n).length = n / 255 + 1 := by
  simp [lz4LenExtBytes]

/-- The token-plus-literal-extension emission grows the destination by at
most `literalLen / 255 + 2` bytes. -/
theorem emitLiteralLenToken_le (dst : List Nat) (literalLen : Nat) :
    (emitLiteralLenToken dst literalLen).length ≤ dst.length + literalLen / 255 + 2 := by
  rw [emitLiteralLenToken]
  split
  · simp only [List.length_append, List.length_cons, List.length_nil]
    omega
  · simp only [List.length_append, lz4LenExtBytes_length, List.length_cons, List.length_nil]
    have : (literalLen - 15) / 255 ≤ literalLen / 255 :=
      Nat.div_le_div_right (Nat.sub_le _ _)
    omega

/-- The word phase of the LCP helper preserves `p + n`. -/
theorem lcpWordPhase_add (src : List Nat) :
    ∀ (fuel p q n : Nat),
      (lcpWordPhase src fuel p q n).1 + (lcpWordPhase src fuel p q n).2.2 = p + n := by
  intro fuel
  induction fuel with
  | zero => intro p q n; rfl
  | succ fuel ih =>
    intro p q n
    rw [lcpWordPhase]
    split
    · rename_i hcond
      rw [ih]
      omega
    · rfl

/-- The byte phase of the LCP helper advances `p` by at most `n`. -/
theorem lcpBytePhase_le (src : List Nat) :
    ∀ (fuel p q n : Nat), lcpBytePhase src fuel p q n ≤ p + n := by
  intro fuel
  induction fuel with
  | zero => intro p q n; exact Nat.le_add_right _ _
  | succ fuel ih =>
    intro p q n
    rw [lcpBytePhase]
    split
    · rename_i hcond
      have := ih (p + 1) (q + 1) (n - 1)
      omega
    · exact Nat.le_add_right _ _

/-- The LCP length is at most the distance from `p` to the limit. -/
theorem lcp_le (src : List Nat) (p q pLimit : Nat) :
    sflz4_private_longest_common_prefix src p q pLimit ≤ pLimit - p := by
  rw [ sflz4_private_longest_common_prefix]
  dsimp only
  rcases hw : lcpWordPhase src (pLimit - p) p q (pLimit - p) with ⟨p1, q1, n1⟩
  have hadd := lcpWordPhase_add src (pLimit - p) p q (pLimit - p)
  rw [hw] at hadd
  dsimp only at hadd ⊢
  have hb := lcpBytePhase_le src n1 p1 q1 n1
  omega

/-- Backward match extension stays between `literal_start` and the original
`sp`. -/
theorem backExtend_bounds (src : List Nat) :
    ∀ (fuel sp m ls : Nat), ls ≤ sp →
      ls ≤ (backExtend src fuel sp m ls).1 ∧ (backExtend src fuel sp m ls).1 ≤ sp := by
  intro fuel
  induction fuel with
  | zero => intro sp m ls h; exact ⟨h, Nat.le_refl _⟩
  | succ fuel ih =>
    intro sp m ls h
    rw [backExtend]
    split
    · rename_i hcond
      have := ih (sp - 1) (m - 1) ls (by omega)
      omega
    · exact ⟨h, Nat.le_refl _⟩

/-- A successful probe of the search loop returns a position between the
initial `next_sp` and the final-literals limit. -/
theorem encodeSearch_sp (src : List Nat) (fll : Nat) :
    ∀ (fuel : Nat) (table : Nat → Nat) (step stepCounter nextSp nextHash : Nat)
      (t' : Nat → Nat) (sp m : Nat),
      encodeSearch src fll fuel table step stepCounter nextSp nextHash =
        some (some (t', sp, m)) →
      nextSp ≤ fll → nextSp ≤ sp ∧ sp ≤ fll := by
  intro fuel
  induction fuel with
  | zero => intro _ _ _ _ _ _ _ _ h _; cases h
  | succ fuel ih =>
    intro table step stepCounter nextSp nextHash t' sp m h hns
    rw [encodeSearch] at h
    dsimp only at h
    split at h
    · cases h
    · rename_i hlim
      split at h
      · have := ih _ _ _ _ _ _ _ _ h (by omega)
        omega
      · cases h
        exact ⟨Nat.le_refl _, hns⟩

/-- Worst-case output-length invariant through the match-emission loop: from
`dst.length ≤ sp + sp / 255 + 16` at entry (pending token and literal bytes
already counted), every exit satisfies `d.length ≤ s + s / 255 + 14` where
`s` is the new `literal_start`, and `s` respects the loop limits. -/
theorem encodeChain_length_le (src : List Nat) (ml fll : Nat)
    (hml : ml = src.length - 5) (hfll : fll = src.length - 11) (hlen : 12 < src.length) :
    ∀ (fuel : Nat) (table : Nat → Nat) (dst : List Nat) (tokenPos sp m : Nat)
      (res : Sum ((Nat → Nat) × List Nat × Nat) ((Nat → Nat) × List Nat × Nat)),
      encodeChain src ml fll fuel table dst tokenPos sp m = some res →
      dst.length ≤ sp + sp / 255 + 16 → sp ≤ fll →
      (∀ t d s, res = .inl (t, d, s) → d.length ≤ s + s / 255 + 14 ∧ s < fll) ∧
      (∀ t d s, res = .inr (t, d, s) → d.length ≤ s + s / 255 + 14 ∧ s ≤ src.length) := by
  intro fuel
  induction fuel with
  | zero => intro table dst tokenPos sp m res h _ _; cases h
  | succ fuel ih =>
    intro table dst tokenPos sp m res h hch hsp
    rw [encodeChain] at h
    dsimp only at h
    have hadj := lcp_le src (4 + sp) (4 + m) ml
    set adj := sflz4_private_longest_common_prefix src (4 + sp) (4 + m) ml with hadjdef
    have hdiv1 : sp / 255 ≤ (sp + 4 + adj) / 255 := Nat.div_le_div_right (by omega)
    have hdiv2 : sp / 255 + (adj - 15) / 255 ≤ (sp + 4 + adj) / 255 := by
      have h1 : sp / 255 + (adj - 15) / 255 ≤ (sp + (adj - 15)) / 255 :=
        Nat.add_div_le_add_div _ _ _
      have h2 : (sp + (adj - 15)) / 255 ≤ (sp + 4 + adj) / 255 :=
        Nat.div_le_div_right (by omega)
      omega
    have hd2 :
        (if adj < 15 then
            (dst ++ [(sp - m) &&& 255, (sp - m) >>> 8 &&& 255]).set tokenPos
              ((dst ++ [(sp - m) &&& 255, (sp - m) >>> 8 &&& 255]).getD tokenPos 0 ||| adj)
          else
            ((dst ++ [(sp - m) &&& 255, (sp - m) >>> 8 &&& 255]).set tokenPos
              ((dst ++ [(sp - m) &&& 255, (sp - m) >>> 8 &&& 255]).getD tokenPos 0 ||| 0x0F)) ++
              lz4LenExtBytes (adj - 15)).length ≤
          (sp + 4 + adj) + (sp + 4 + adj) / 255 + 14 := by
      split
      · rename_i hlt
        simp only [List.length_set, List.length_append, List.length_cons, List.length_nil]
        omega
      · rename_i hge
        simp only [List.length_append, List.length_set, lz4LenExtBytes_length,
          List.length_cons, List.length_nil]
        omega
    split at h
    · rename_i hexit
      cases h
      refine ⟨(fun t d s heq => nomatch heq), fun t d s heq => ?_⟩
      cases heq
      constructor
      · exact hd2
      · omega
    · rename_i hcont
      split at h
      · rename_i hbreak
        cases h
        refine ⟨fun t d s heq => ?_, (fun t d s heq => nomatch heq)⟩
        cases heq
        constructor
        · exact hd2
        · omega
      · rename_i hchain
        have hih := ih _ _ _ _ _ _ h (by
          simp only [List.length_append, List.length_cons, List.length_nil]
          have := hd2
          omega) (by omega)
        exact hih

/-- Worst-case output-length invariant through the encoder's outer loop:
from `dst.length ≤ sp + sp / 255 + 14` at the top of the loop (where
`sp = literal_start`), the loop returns a destination and a final
`literal_start` satisfying the same bound. -/
theorem encodeOuter_length_le (src : List Nat) (ml fll : Nat)
    (hml : ml = src.length - 5) (hfll : fll = src.length - 11) (hlen : 12 < src.length) :
    ∀ (fuel : Nat) (table : Nat → Nat) (dst : List Nat) (sp : Nat) (d : List Nat) (l : Nat),
      encodeOuter src ml fll fuel table dst sp = some (d, l) →
      dst.length ≤ sp + sp / 255 + 14 → sp < fll →
      d.length ≤ l + l / 255 + 14 ∧ l ≤ src.length := by
  intro fuel
  induction fuel with
  | zero => intro table dst sp d l h _ _; cases h
  | succ fuel ih =>
    intro table dst sp d l h hA hsp
    rw [encodeOuter] at h
    dsimp only at h
    split at h
    · cases h
    · cases h
      exact ⟨hA, by omega⟩
    · rename_i t1 sp1 m hsearch
      have hsp1 := encodeSearch_sp src fll _ _ _ _ _ _ _ _ _ hsearch (by omega)
      rcases hbe : backExtend src sp1 sp1 m sp with ⟨sp2, m2⟩
      have hbb := backExtend_bounds src sp1 sp1 m sp (by omega)
      rw [hbe] at h hbb
      dsimp only at h hbb
      have hch : (emitLiteralLenToken dst (sp2 - sp) ++
          (src.drop sp).take (sp2 - sp)).length ≤ sp2 + sp2 / 255 + 16 := by
        have h1 := emitLiteralLenToken_le dst (sp2 - sp)
        have h2 : ((src.drop sp).take (sp2 - sp)).length ≤ sp2 - sp := by
          simp [List.length_take]
        have h3 : sp / 255 + (sp2 - sp) / 255 ≤ sp2 / 255 := by
          have h4 := Nat.add_div_le_add_div sp (sp2 - sp) 255
          have h5 : sp + (sp2 - sp) = sp2 := by omega
          rw [h5] at h4
          exact h4
        simp only [List.length_append]
        omega
      split at h
      · cases h
      · rename_i t2 d2 s2 hchain
        cases h
        exact (encodeChain_length_le src ml fll hml hfll hlen _ _ _ _ _ _ _
          hchain hch (by omega)).2 _ _ _ rfl
      · rename_i t2 d2 s2 hchain
        have hinl := (encodeChain_length_le src ml fll hml hfll hlen _ _ _ _ _ _ _
          hchain hch (by omega)).1 t2 d2 s2 rfl
        exact ih _ _ _ _ _ h hinl.1 hinl.2

/-- The `final_literals` tail keeps the total output within
`src_len + src_len / 255 + 16`. -/
theorem emitFinalLiterals_le (src dst : List Nat) (ls : Nat)
    (h : dst.length ≤ ls + ls / 255 + 14) (hls : ls ≤ src.length) :
    (emitFinalLiterals src dst ls).length ≤ src.length + src.length / 255 + 16 := by
  rw [emitFinalLiterals]
  have h1 := emitLiteralLenToken_le dst (src.length - ls)
  have h2 : ((src.drop ls).take (src.length - ls)).length ≤ src.length - ls := by
    simp [List.length_take]
  have h3 : ls / 255 + (src.length - ls) / 255 ≤ src.length / 255 := by
    have h4 := Nat.add_div_le_add_div ls (src.length - ls) 255
    have h5 : ls + (src.length - ls) = src.length := by omega
    rw [h5] at h4
    exact h4
  simp only [List.length_append]
  omega

/-! ## Claim theorems -/

/-- Claim C1: the round-trip identity `decode(encode(S)) = S` fails on the
code at `S = []` (the empty byte sequence): `sflz4_block_encode` of the empty
input produces the single byte `[0x00]` (with a worst-case destination of 16
bytes), but `sflz4_block_decode` of `[0x00]` (with a destination of at least
`|S| = 0` bytes) returns `invalid-data` instead of succeeding with the empty
output, because the end-of-block success return (sflz4.h lines 240-243) is
nested inside the `literal_len > 0` branch. -/
theorem claim_C1_roundtrip_fails_on_empty :
    sflz4_block_encode 16 [] = some ([0x00], ⟨none, 1⟩) ∧
    sflz4_block_decode 0 [0x00] = ([], ⟨some .invalidData, 0⟩) := by decide

/-- Claim C2: `sflz4_block_encode` of the empty input does produce `[0x00]`,
but `sflz4_block_decode [0x00]` fails with `invalid-data` rather than
returning 0 bytes written; in general a sequence whose token has a
zero-length literal run and whose source is exhausted right after the token
reaches the `src_len < 2` test (sflz4.h line 246) rather than the success
return, at every decoder loop state. -/
theorem claim_C2_zero_length_literal_terminator :
    sflz4_block_encode 16 [] = some ([0x00], ⟨none, 1⟩) ∧
    sflz4_block_decode 8 [0x00] = ([], ⟨some .invalidData, 0⟩) ∧
    (∀ (fuel : Nat) (w : List Nat) (d : Nat),
      decodeLoop (fuel + 1) w d [0x00] = some (w, ⟨some .invalidData, 0⟩)) :=
  ⟨by decide, by decide, fun fuel w d => rfl⟩

/-- Claim C5: whenever the decoder reads a 16-bit little-endian match offset
that is zero or exceeds the number of destination bytes emitted so far, it
fails with `invalid-data` (sflz4.h lines 246-255); in particular the source
`[0x10, 0x41, 0x00, 0x00, 0x00]` (one literal then a zero offset) fails with
`invalid-data`. -/
theorem claim_C5_offset_must_be_in_window :
    (∀ (w : List Nat) (d b0 b1 : Nat) (rest : List Nat) (t : Nat),
      b0 ||| (b1 <<< 8) = 0 ∨ b0 ||| (b1 <<< 8) > w.length →
      decodeMatchStep w d (b0 :: b1 :: rest) t = .inl (w, ⟨some .invalidData, 0⟩)) ∧
    sflz4_block_decode 16 [0x10, 0x41, 0x00, 0x00, 0x00] = ([0x41], ⟨some .invalidData, 0⟩) := by
  constructor
  · intro w d b0 b1 rest t h
    rw [decodeMatchStep]
    dsimp only
    rw [if_pos h]
  · decide

/-- Witness for C5: at `written = [0x41]`, offset bytes `0, 0` give offset 0,
which is rejected. -/
theorem claim_C5_witness :
    ((0 : Nat) ||| (0 <<< 8) = 0 ∨ (0 : Nat) ||| (0 <<< 8) > ([0x41] : List Nat).length) ∧
    decodeMatchStep [0x41] 8 [0, 0] 0 = .inl ([0x41], ⟨some .invalidData, 0⟩) :=
  ⟨Or.inl (by decide),
   claim_C5_offset_must_be_in_window.1 [0x41] 8 0 0 [] 0 (Or.inl (by decide))⟩

/-- Claim C6: the decoder's match copy is a forward byte-by-byte copy from
`dst_cursor - offset`, so offset 1 with length `k` appends `k` copies of the
byte just before the cursor; end to end, the block
`[0x15, 'A', 0x01, 0x00, 0x10, 'B']` (literal `A`, then offset 1 with match
length 9, then literal `B`) decodes to ten `A`s followed by `B`. -/
theorem claim_C6_overlap_copy_run_length :
    (∀ (k : Nat) (w : List Nat),
      lz4MatchCopy w 1 k = w ++ List.replicate k (w.getD (w.length - 1) 0)) ∧
    sflz4_block_decode 16 [0x15, 0x41, 0x01, 0x00, 0x10, 0x42] =
      ([0x41, 0x41, 0x41, 0x41, 0x41, 0x41, 0x41, 0x41, 0x41, 0x41, 0x42], ⟨none, 11⟩) :=
  ⟨lz4MatchCopy_offset_one, by decide⟩

/-- Claim C7: the decoder never holds more than `dst_cap` destination bytes
(writes are bounded by the capacity on every path, success or error), and a
source longer than `0x00FFFFFF` fails with `src-too-long` immediately, with
no destination byte written.  (In this embedding the decoder can only read
its source by structurally consuming the `src` list, so reads beyond
`src_len` are impossible by construction.) -/
theorem claim_C7_decoder_never_oversteps :
    (∀ (dstCap : Nat) (src : List Nat), (sflz4_block_decode dstCap src).1.length ≤ dstCap) ∧
    (∀ (dstCap : Nat) (src : List Nat), src.length > 0x00FFFFFF →
      sflz4_block_decode dstCap src = ([], ⟨some .srcIsTooLong, 0⟩)) := by
  constructor
  · intro dstCap src
    rw [sflz4_block_decode]
    split
    · simp
    · rcases hd : decodeLoop (src.length + 1) [] dstCap src with _ | r
      · simp
      · have hb := decodeLoop_written_le _ _ _ _ _ hd
        simp only [hd, Option.getD_some]
        simpa using hb
  · intro dstCap src h
    rw [sflz4_block_decode, if_pos h]

/-- Witness for C7: a source of `0x01000000` zero bytes is over the decode
ceiling and is rejected with `src-too-long`. -/
theorem claim_C7_witness :
    (List.replicate 16777216 (0 : Nat)).length > 0x00FFFFFF ∧
    sflz4_block_decode 4 (List.replicate 16777216 (0 : Nat)) = ([], ⟨some .srcIsTooLong, 0⟩) :=
  ⟨by rw [List.length_replicate]; decide,
   claim_C7_decoder_never_oversteps.2 4 (List.replicate 16777216 0)
     (by rw [List.length_replicate]; decide)⟩

/-- Claim C10: the decoder's length accumulators stay far below `2^32` for
any source within the decode ceiling: the extension loop adds at most 255
per consumed source byte, so a literal length (base accumulator 15) and a
match length (base accumulator 19) are bounded by `19 + 255 * src_len`,
which is below `2^32` when `src_len ≤ 0x00FFFFFF`; the C `uint32_t`
arithmetic therefore never wraps and the `Nat` embedding is exact. -/
theorem claim_C10_length_accumulators_below_two_pow_32 :
    (∀ (s : List Nat) (acc v : Nat) (r : List Nat),
      lz4ExtLen acc s = some (v, r) → (∀ b ∈ s, b < 256) →
      v ≤ acc + 255 * s.length) ∧
    (∀ (s : List Nat) (v : Nat) (r : List Nat),
      s.length ≤ 0x00FFFFFF → (∀ b ∈ s, b < 256) →
      lz4ExtLen 15 s = some (v, r) → v < 4294967296) ∧
    (∀ (s : List Nat) (v : Nat) (r : List Nat),
      s.length ≤ 0x00FFFFFF → (∀ b ∈ s, b < 256) →
      lz4ExtLen 19 s = some (v, r) → v < 4294967296) := by
  have hmain : ∀ (s : List Nat) (acc v : Nat) (r : List Nat),
      lz4ExtLen acc s = some (v, r) → (∀ b ∈ s, b < 256) →
      v ≤ acc + 255 * s.length := by
    intro s acc v r h hb
    have h1 := lz4ExtLen_le s acc v r h hb
    have h2 : s.length - r.length ≤ s.length := Nat.sub_le _ _
    have h3 : 255 * (s.length - r.length) ≤ 255 * s.length :=
      Nat.mul_le_mul_left _ h2
    omega
  refine ⟨hmain, ?_, ?_⟩
  · intro s v r hlen hb h
    have h1 := hmain s 15 v r h hb
    have h2 : 255 * s.length ≤ 255 * 0x00FFFFFF := Nat.mul_le_mul_left _ hlen
    omega
  · intro s v r hlen hb h
    have h1 := hmain s 19 v r h hb
    have h2 : 255 * s.length ≤ 255 * 0x00FFFFFF := Nat.mul_le_mul_left _ hlen
    omega

/-- Witness for C10: the two-byte extension `[255, 4]` under the literal
base 15 accumulates to `274 < 2^32`. -/
theorem claim_C10_witness :
    ([255, 4] : List Nat).length ≤ 0x00FFFFFF ∧
    lz4ExtLen 15 [255, 4] = some (274, []) ∧ (274 : Nat) < 4294967296 :=
  ⟨by decide, by decide,
   claim_C10_length_accumulators_below_two_pow_32.2.1 [255, 4] 274 []
     (by decide) (by decide) (by decide)⟩

/-- Claim C3: the worst-case helper fails with `src-too-long` exactly when
`n > 0x7E000000` and otherwise returns `n + n / 255 + 16`; and every
successful `sflz4_block_encode` returns a byte count of at most
`|S| + |S| / 255 + 16`. -/
theorem claim_C3_worst_case_bound :
    (∀ n : Nat, n > 0x7E000000 →
      sflz4_block_encode_worst_case_dst_len n = ⟨some .srcIsTooLong, 0⟩) ∧
    (∀ n : Nat, n ≤ 0x7E000000 →
      sflz4_block_encode_worst_case_dst_len n = ⟨none, n + n / 255 + 16⟩) ∧
    (∀ (dstLen : Nat) (src out : List Nat) (res : SizeResult),
      src.length ≤ 0x7E000000 →
      sflz4_block_encode dstLen src = some (out, res) → res.status = none →
      res.value ≤ src.length + src.length / 255 + 16) := by
  refine ⟨?_, ?_, ?_⟩
  · intro n h
    rw [sflz4_block_encode_worst_case_dst_len, if_pos h]
  · intro n h
    rw [sflz4_block_encode_worst_case_dst_len, if_neg (by omega)]
  · intro dstLen src out res hceil henc hst
    rw [sflz4_block_encode] at henc
    have hw : sflz4_block_encode_worst_case_dst_len src.length =
        ⟨none, src.length + src.length / 255 + 16⟩ := by
      rw [sflz4_block_encode_worst_case_dst_len, if_neg (by omega)]
    rw [hw] at henc
    dsimp only at henc
    split at henc
    · cases henc
      simp at hst
    · split at henc
      · rename_i hgt12
        split at henc
        · cases henc
        · rename_i dst1 ls houter
          cases henc
          have hO := encodeOuter_length_le src (src.length - 5) (src.length - 11)
            rfl rfl (by omega) (src.length + 2) (fun _ => 0) [] 0 dst1 ls houter
            (by simp) (by omega)
          exact emitFinalLiterals_le src dst1 ls hO.1 hO.2
      · cases henc
        exact emitFinalLiterals_le src [] 0 (by simp) (Nat.zero_le _)

/-- Witness for C3: at `n = 3` the helper returns `3 + 0 + 16 = 19`, and
encoding the three bytes `[1, 2, 3]` into a 19-byte destination succeeds with
4 bytes, within the bound. -/
theorem claim_C3_witness :
    (3 : Nat) ≤ 0x7E000000 ∧
    sflz4_block_encode_worst_case_dst_len 3 = ⟨none, 19⟩ ∧
    sflz4_block_encode 19 [1, 2, 3] = some ([0x30, 1, 2, 3], ⟨none, 4⟩) ∧
    (4 : Nat) ≤ 3 + 3 / 255 + 16 :=
  ⟨by decide, by decide, by decide,
   claim_C3_worst_case_bound.2.2 19 [1, 2, 3] [0x30, 1, 2, 3] ⟨none, 4⟩
     (by decide) (by decide) rfl⟩

/-- Claim C4: with the source within the encode ceiling, any destination
capacity strictly below `worst_case(|S|) = |S| + |S| / 255 + 16` makes
`sflz4_block_encode` fail immediately with `dst-too-short` (nothing written),
and with capacity at least the worst case the encoder never reports
`dst-too-short` (after the up-front check the code has no such exit). -/
theorem claim_C4_dst_undersizing :
    (∀ (src : List Nat) (dstLen : Nat),
      src.length ≤ 0x7E000000 →
      dstLen < src.length + src.length / 255 + 16 →
      sflz4_block_encode dstLen src = some ([], ⟨some .dstIsTooShort, 0⟩)) ∧
    (∀ (src : List Nat) (dstLen : Nat) (out : List Nat) (res : SizeResult),
      src.length + src.length / 255 + 16 ≤ dstLen →
      sflz4_block_encode dstLen src = some (out, res) →
      res.status ≠ some .dstIsTooShort) := by
  constructor
  · intro src dstLen hceil hlt
    rw [sflz4_block_encode]
    have hw : sflz4_block_encode_worst_case_dst_len src.length =
        ⟨none, src.length + src.length / 255 + 16⟩ := by
      rw [sflz4_block_encode_worst_case_dst_len, if_neg (by omega)]
    rw [hw]
    dsimp only
    rw [if_pos (by omega)]
  · intro src dstLen out res hge henc
    rw [sflz4_block_encode] at henc
    by_cases hceil : src.length > 0x7E000000
    · have hw : sflz4_block_encode_worst_case_dst_len src.length =
          ⟨some .srcIsTooLong, 0⟩ := by
        rw [sflz4_block_encode_worst_case_dst_len, if_pos hceil]
      rw [hw] at henc
      dsimp only at henc
      cases henc
      simp
    · have hw : sflz4_block_encode_worst_case_dst_len src.length =
          ⟨none, src.length + src.length / 255 + 16⟩ := by
        rw [sflz4_block_encode_worst_case_dst_len, if_neg (by omega)]
      rw [hw] at henc
      dsimp only at henc
      split at henc
      · omega
      · split at henc
        · split at henc
          · cases henc
          · cases henc
            simp
        · cases henc
          simp

/-- Witness for C4: the empty source with capacity 15 (one below the worst
case 16) is refused with `dst-too-short`; with capacity 16 the result status
is not `dst-too-short`. -/
theorem claim_C4_witness :
    (([] : List Nat).length ≤ 0x7E000000 ∧ 15 < ([] : List Nat).length + 16 ∧
      sflz4_block_encode 15 [] = some ([], ⟨some .dstIsTooShort, 0⟩)) ∧
    ((⟨none, 1⟩ : SizeResult).status ≠ some .dstIsTooShort) :=
  ⟨⟨by decide, by decide,
    claim_C4_dst_undersizing.1 [] 15 (by decide) (by decide)⟩,
   claim_C4_dst_undersizing.2 [] 16 [0x00] ⟨none, 1⟩ (by decide) (by decide)⟩

/-- Claim C8: every source with `1 ≤ |S| ≤ 12` (and a destination of at
least worst-case capacity `|S| + 16`) is emitted as a single literal-only
sequence: one token byte `|S| <<< 4` followed by the raw bytes of `S`, with
no offset, for a total of `|S| + 1` bytes; in particular `encode "A"` is
`[0x10, 0x41]` and twelve `A`s give `[0xC0]` followed by the twelve bytes. -/
theorem claim_C8_short_input_literal_only :
    (∀ (src : List Nat) (dstCap : Nat),
      1 ≤ src.length → src.length ≤ 12 → src.length + 16 ≤ dstCap →
      sflz4_block_encode dstCap src =
        some ((src.length <<< 4) :: src, ⟨none, src.length + 1⟩)) ∧
    sflz4_block_encode 17 [0x41] = some ([0x10, 0x41], ⟨none, 2⟩) ∧
    sflz4_block_encode 1024 (List.replicate 12 0x41) =
      some (0xC0 :: List.replicate 12 0x41, ⟨none, 13⟩) := by
  refine ⟨?_, by decide, by decide⟩
  intro src dstCap h1 h12 hcap
  rw [sflz4_block_encode]
  have hdiv : src.length / 255 = 0 := Nat.div_eq_of_lt (by omega)
  have hw : sflz4_block_encode_worst_case_dst_len src.length =
      ⟨none, src.length + 16⟩ := by
    rw [sflz4_block_encode_worst_case_dst_len, if_neg (by omega), hdiv]
  rw [hw]
  dsimp only
  rw [if_neg (by omega), if_neg (by omega)]
  rw [emitFinalLiterals]
  rw [Nat.sub_zero, emitLiteralLenToken]
  rw [if_pos (by omega : src.length < 15)]
  rw [List.drop_zero, List.take_length]
  simp

/-- Witness for C8: the two-byte source `[65, 66]` with capacity 18. -/
theorem claim_C8_witness :
    (1 ≤ ([65, 66] : List Nat).length ∧ ([65, 66] : List Nat).length ≤ 12 ∧
      ([65, 66] : List Nat).length + 16 ≤ 18) ∧
    sflz4_block_encode 18 [65, 66] = some ([0x20, 65, 66], ⟨none, 3⟩) :=
  ⟨⟨by decide, by decide, by decide⟩,
   claim_C8_short_input_literal_only.1 [65, 66] 18 (by decide) (by decide) (by decide)⟩

set_option maxRecDepth 100000 in
/-- Claim C9: `sflz4_block_encode` of the 158-byte "She sells sea shells"
text produces exactly the 114-byte block of example.c, and
`sflz4_block_decode` of those 114 bytes returns the original 158 bytes. -/
theorem claim_C9_she_sells_sea_shells :
    sflz4_block_encode 1024 sheSellsSrc = some (sheSellsEncoded, ⟨none, 114⟩) ∧
    sflz4_block_decode 1024 sheSellsEncoded = (sheSellsSrc, ⟨none, 158⟩) := by
  constructor
  · decide
  · decide

end SFLZ4
